import Mathlib

/-
Verification development for the qwak hybrid recipe recommender.

Shallow embedding of the Python backend in Lean 4:
  - floating-point scores and weights are modelled as rationals;
  - Python dictionaries produced by the recommenders are modelled as
    insertion-ordered association lists with string keys;
  - Python `list.sort(key=..., reverse=True)` (Timsort) is stable, so it is
    modelled by a stable descending insertion sort on the same key; any two
    stable sorts on the same key agree, so the model is exact;
  - the external ML components (fitted TF-IDF vectorizer, sentence
    embedding encoder, FAISS index) are abstracted as an arbitrary
    per-query score vector aligned with the corpus rows, exactly the data
    they hand back to the code under verification.

Source files embedded:
  qwak/backend/utils/similarity.py      (HybridScorer, create_hybrid_scorer)
  qwak/backend/utils/filters.py         (RecipeFilter.filter_recipes)
  qwak/backend/models/recommender_tfidf.py  (TFIDFRecommender)
  qwak/backend/models/recommender_embed.py  (EmbeddingRecommender)
  qwak/backend/models/hybrid_recommender.py (HybridRecommender)
  qwak/backend/core/config.py           (Settings)
-/

namespace Qwak

/-! ### Models of the Python string primitives used by the code
`str.lower` / `str.strip` / `str.split(',')` / substring containment (`in`)
are modelled over character lists. -/

/-- Python whitespace for `str.strip()` (the characters that occur in the data). -/
def isSpaceChar (c : Char) : Bool :=
  c = ' ' || c = '\t' || c = '\n' || c = '\r'

/-- Model of `str.strip()` on a character list. -/
def trimChars (l : List Char) : List Char :=
  ((l.dropWhile isSpaceChar).reverse.dropWhile isSpaceChar).reverse

/-- Model of `str.lower()` on a character list. -/
def lowerChars (l : List Char) : List Char :=
  l.map Char.toLower

/-- Model of `str.lower()` returning a string. -/
def lowerStr (s : String) : String :=
  String.mk (lowerChars s.toList)

/-- Model of `str.lower().strip()` as applied to each raw ingredient. -/
def cleanTok (s : String) : String :=
  String.mk (trimChars (lowerChars s.toList))

/-- `leadsWith needle hay` holds when `needle` starts `hay`. -/
def leadsWith : List Char → List Char → Bool
  | [], _ => true
  | _ :: _, [] => false
  | a :: as, b :: bs => a == b && leadsWith as bs

/-- Model of the Python substring test `needle in hay`. -/
def subChars (needle : List Char) : List Char → Bool
  | [] => needle.isEmpty
  | c :: rest => leadsWith needle (c :: rest) || subChars needle rest

/-- Model of `str.split(',')`: chunks between commas, never merging. -/
def splitComma : List Char → List (List Char)
  | [] => [[]]
  | c :: rest =>
    if c = ',' then [] :: splitComma rest
    else
      match splitComma rest with
      | [] => [[c]]
      | chunk :: chunks => (c :: chunk) :: chunks

/-! ### Data model

`recipe_metadata` rows are dictionaries with a fixed schema
(`id`, `title`, `ingredients_cleaned`, `cuisine`, `diet_types`,
`cooking_time`, `difficulty`); they are modelled as a structure. -/

structure Recipe where
  id : Int
  title : String
  ingredients_cleaned : String
  cuisine : String
  diet_types : String
  cooking_time : Int
  difficulty : String
deriving DecidableEq, Repr

/-- Values stored in the result dictionaries built by the recommenders. -/
inductive Val where
  | i (v : Int)
  | s (v : String)
  | q (v : ℚ)
deriving DecidableEq, Repr

/-- A Python dict with string keys, as an insertion-ordered association list.
Keys are unique by construction of all dicts in this development. -/
abbrev Dict := List (String × Val)

/-- `d.get(k)`: first binding of `k`, if any. -/
def dget (d : Dict) (k : String) : Option Val :=
  (d.find? (fun kv => kv.1 == k)).map (fun kv => kv.2)

/-- `d.get(k, v)`: binding of `k`, or the default `v`. -/
def dgetD (d : Dict) (k : String) (v : Val) : Val :=
  (dget d k).getD v

/-- `d.get(k, 0.0)` read as a number (every value stored under the numeric
keys is a `Val.q`, so the wildcard row is never hit on the embedded data). -/
def getQ (d : Dict) (k : String) : ℚ :=
  match dget d k with
  | some (Val.q x) => x
  | _ => 0

/-- `d.get(k, '')` read as a string. -/
def getS (d : Dict) (k : String) : String :=
  match dget d k with
  | some (Val.s x) => x
  | _ => ""

/-- `d[k] = v`: update in place if the key exists (keeping its position,
as Python dicts do), otherwise append the new binding at the end. -/
def dset (d : Dict) (k : String) (v : Val) : Dict :=
  if (d.find? (fun kv => kv.1 == k)).isSome then
    d.map (fun kv => if kv.1 == k then (k, v) else kv)
  else
    d ++ [(k, v)]

/-! ### config.py — the settings defaults (floats 0.4 / 0.6) -/

def settingsTfidfWeight : ℚ := 2 / 5

def settingsEmbeddingWeight : ℚ := 3 / 5

/-! ### similarity.py — HybridScorer -/

/-- Python `x or default` applied to an optional float argument: `None`
and `0.0` are both falsy and fall back to the default. -/
def pyOr (x : Option ℚ) (d : ℚ) : ℚ :=
  match x with
  | none => d
  | some v => if v = 0 then d else v

/-- `HybridScorer.__init__` (similarity.py lines 20-46): substitute the
settings defaults for falsy arguments, then renormalize so the weights sum
to 1 when the total is positive, else fall back to 0.5/0.5.
`create_hybrid_scorer` passes its arguments through unchanged, so it is the
same function. Returns `(tfidf_weight, embedding_weight)`. -/
def effWeights (tfidfWeight embeddingWeight : Option ℚ) : ℚ × ℚ :=
  let t := pyOr tfidfWeight settingsTfidfWeight
  let e := pyOr embeddingWeight settingsEmbeddingWeight
  let total := t + e
  if 0 < total then (t / total, e / total)
  else (1 / 2, 1 / 2)

/-- `np.min` over the modelled score array (the code guards the empty case
before calling it; the `[]` row is unreachable there). -/
def npMin : List ℚ → ℚ
  | [] => 0
  | h :: t => t.foldl min h

/-- `np.max` over the modelled score array. -/
def npMax : List ℚ → ℚ
  | [] => 0
  | h :: t => t.foldl max h

/-- `HybridScorer.normalize_score_array` (similarity.py lines 50-70):
empty arrays pass through; flat arrays become all 0.5; otherwise min-max
scale to the unit interval. -/
def normalizeScoreArray (scores : List ℚ) : List ℚ :=
  if scores.length = 0 then scores
  else
    let mn := npMin scores
    let mx := npMax scores
    if mx = mn then scores.map (fun _ => (1 : ℚ) / 2)
    else scores.map (fun s => (s - mn) / (mx - mn))

/-- The parts of the `score_info` dictionary that the callers inspect. -/
structure ScoreInfo where
  tfidf_available : Bool
  embedding_available : Bool
  fallback_mode : Option String
deriving DecidableEq, Repr

/-- `HybridScorer.combine_scores` (similarity.py lines 72-152): `none`
models a backend whose scores are unavailable. With both absent it returns
an empty array (it does not raise); with one absent it normalizes and
returns the other, tagging the fallback mode; with both present it
truncates to the shorter length, normalizes each array and combines them
by the weighted average. -/
def combineScores (tfidfScores embeddingScores : Option (List ℚ))
    (tfidfWeight embeddingWeight : ℚ) (normalize : Bool) :
    List ℚ × ScoreInfo :=
  let info : ScoreInfo :=
    { tfidf_available := tfidfScores.isSome
      embedding_available := embeddingScores.isSome
      fallback_mode := none }
  match tfidfScores, embeddingScores with
  | none, none => ([], info)
  | none, some e =>
      (if normalize then normalizeScoreArray e else e,
       { info with fallback_mode := some "embedding_only" })
  | some t, none =>
      (if normalize then normalizeScoreArray t else t,
       { info with fallback_mode := some "tfidf_only" })
  | some t, some e =>
      let m := min t.length e.length
      let t' := t.take m
      let e' := e.take m
      let tn := if normalize then normalizeScoreArray t' else t'
      let en := if normalize then normalizeScoreArray e' else e'
      (List.zipWith (fun a b => tfidfWeight * a + embeddingWeight * b) tn en,
       info)

/-! ### Query preprocessing (recommender_tfidf.py 50-68, recommender_embed.py 55-74)

Both backends lower-case and strip each ingredient, drop the falsy ones and
join the survivors — with `','` for the TF-IDF vectorizer and `' '` for the
sentence encoder. -/

def cleanedIngredients (ingredients : List String) : List String :=
  (ingredients.map cleanTok).filter (fun s => s ≠ "")

/-- `TFIDFRecommender._preprocess_ingredients`. -/
def preprocessTfidf (ingredients : List String) : String :=
  String.intercalate "," (cleanedIngredients ingredients)

/-- `EmbeddingRecommender._preprocess_ingredients`. -/
def preprocessEmbed (ingredients : List String) : String :=
  String.intercalate " " (cleanedIngredients ingredients)

/-! ### Candidate generation (recommender_tfidf.py 128-165, recommender_embed.py 146-189)

The two `get_top_recommendations` bodies share the same loop: walk the
score array in corpus-row order, drop rows below `min_score`, apply the
inline cuisine and diet filters, build a result dict per surviving row,
sort descending by `similarity_score` (stable), truncate to `top_n`. -/

/-- Python truthiness of an optional string filter argument
(`if cuisine_filter and ...`): `None` and `''` are falsy. -/
def truthy : Option String → Bool
  | none => false
  | some s => !(s == "")

/-- The inline cuisine test on a cuisine string:
keep unless the filter is truthy and `recipe['cuisine'].lower() != filter.lower()`. -/
def cuisinePassS (cf : Option String) (c : String) : Bool :=
  !(truthy cf) || (lowerStr c == lowerStr (cf.getD ""))

/-- The inline diet test on a diet string: keep unless the filter is truthy
and `filter.lower() not in recipe['diet_types'].lower()` — a substring
test on the comma-joined diet string, not label membership. -/
def dietPassS (df : Option String) (d : String) : Bool :=
  !(truthy df) || subChars (lowerChars ((df.getD "").toList)) (lowerChars d.toList)

def cuisinePass (cf : Option String) (r : Recipe) : Bool :=
  cuisinePassS cf r.cuisine

def dietPass (df : Option String) (r : Recipe) : Bool :=
  dietPassS df r.diet_types

/-- One iteration of the candidate loop keeps the row iff the score clears
`min_score` (`score < min_score` skips) and both inline filters pass. -/
def keepCand (minScore : ℚ) (cf df : Option String) (rs : Recipe × ℚ) : Bool :=
  !(rs.2 < minScore) && cuisinePass cf rs.1 && dietPass df rs.1

/-- The result dictionary appended for a surviving row (the dict literal at
recommender_tfidf.py 149-159 and recommender_embed.py 173-183). -/
def recDict (r : Recipe) (score : ℚ) : Dict :=
  [("recipe_id", Val.i r.id),
   ("title", Val.s r.title),
   ("ingredients", Val.s r.ingredients_cleaned),
   ("cuisine", Val.s r.cuisine),
   ("diet_types", Val.s r.diet_types),
   ("cooking_time", Val.i r.cooking_time),
   ("difficulty", Val.s r.difficulty),
   ("similarity_score", Val.q score),
   ("match_percentage", Val.q (score * 100))]

/-- The unsorted candidate list: metadata rows zipped with the score array
(the Python loop indexes `recipe_metadata[idx]` for `idx` ranging over the
score array; the two are aligned by construction of the corpus). -/
def buildRecs (meta : List Recipe) (scores : List ℚ) (minScore : ℚ)
    (cf df : Option String) : List Dict :=
  ((meta.zip scores).filter (keepCand minScore cf df)).map
    (fun rs => recDict rs.1 rs.2)

/-! ### Stable descending sort — model of `list.sort(key=..., reverse=True)`

Python's Timsort is stable and `reverse=True` keeps equal-key elements in
their original order. A stable sort on a given key is unique, so the
insertion sort below computes exactly the list Python produces. -/

/-- Insert `x` after every element of strictly greater key and before the
first element of smaller-or-equal key (so `x`, which comes later in the
original list, lands after earlier elements with an equal key). -/
def insertByDesc {α : Type} (key : α → ℚ) (x : α) : List α → List α
  | [] => [x]
  | y :: ys => if key x < key y then y :: insertByDesc key x ys else x :: y :: ys

/-- Stable descending sort by `key`. -/
def sortByDesc {α : Type} (key : α → ℚ) : List α → List α
  | [] => []
  | x :: xs => insertByDesc key x (sortByDesc key xs)

/-- The sort key of both backends: `x['similarity_score']`. -/
def simKey (d : Dict) : ℚ := getQ d "similarity_score"

/-! ### The two backends -/

/-- `TFIDFRecommender.compute_similarity_scores` (recommender_tfidf.py
70-105): an empty normalized query yields an all-zero score vector over the
corpus; otherwise the fitted vectorizer and cosine similarity produce the
score vector `sim`, abstracted here as a parameter. -/
def tfidfScores (meta : List Recipe) (sim : List ℚ) (ingredients : List String) : List ℚ :=
  if preprocessTfidf ingredients = "" then List.replicate meta.length 0 else sim

/-- `TFIDFRecommender.get_top_recommendations` (recommender_tfidf.py 107-165). -/
def tfidfTop (meta : List Recipe) (sim : List ℚ) (ingredients : List String)
    (topN : Nat) (minScore : ℚ) (cf df : Option String) : List Dict :=
  (sortByDesc simKey
    (buildRecs meta (tfidfScores meta sim ingredients) minScore cf df)).take topN

/-- `EmbeddingRecommender.get_top_recommendations` (recommender_embed.py
125-189): an empty normalized query returns `[]` before any scoring;
otherwise the encoder/FAISS full scan produces the score vector `sim`,
abstracted as a parameter, and the shared candidate loop runs. -/
def embedTop (meta : List Recipe) (sim : List ℚ) (ingredients : List String)
    (topN : Nat) (minScore : ℚ) (cf df : Option String) : List Dict :=
  if preprocessEmbed ingredients = "" then []
  else (sortByDesc simKey (buildRecs meta sim minScore cf df)).take topN

/-! ### filters.py — RecipeFilter.filter_recipes (lines 69-113) -/

/-- Keep index `idx` iff it is in range and the recipe at that row passes:
cuisine must be non-blank after stripping and equal to the filter up to
case; the diet filter must be a member of the comma-split, stripped,
lower-cased diet label list. -/
def keepIdx (meta : List Recipe) (cf df : Option String) (idx : Nat) : Bool :=
  if h : idx < meta.length then
    let recipe := meta.get ⟨idx, h⟩
    let cuisineOk :=
      if truthy cf then
        let rc := trimChars recipe.cuisine.toList
        !(rc.isEmpty) && (lowerChars rc == lowerChars ((cf.getD "").toList))
      else true
    let dietOk :=
      if truthy df then
        let rd := trimChars recipe.diet_types.toList
        let dietList := (splitComma rd).map (fun d => lowerChars (trimChars d))
        !(rd.isEmpty) && dietList.contains (lowerChars ((df.getD "").toList))
      else true
    cuisineOk && dietOk
  else false

/-- `RecipeFilter.filter_recipes`: note it takes `None`-able filters via
Python truthiness exactly like the recommenders do. -/
def filterRecipes (meta : List Recipe) (indices : List Nat)
    (cf df : Option String) : List Nat :=
  indices.filter (keepIdx meta cf df)

/-! ### hybrid_recommender.py — HybridRecommender.get_recommendations (65-159) -/

/-- Tag a TF-IDF result (lines 116-120): copy, then
`result_copy['tfidf_score'] = result_copy.get('match_score', 0.0)` —
the backends never set `'match_score'`, so this stores the default —
then `result_copy['source'] = 'tfidf'`. -/
def tagT (d : Dict) : Dict :=
  dset (dset d "tfidf_score" (dgetD d "match_score" (Val.q 0))) "source" (Val.s "tfidf")

/-- Tag an embedding result (lines 123-127). -/
def tagE (d : Dict) : Dict :=
  dset (dset d "embedding_score" (dgetD d "match_score" (Val.q 0))) "source" (Val.s "embedding")

/-- The insertion-ordered `unique_results` dict, keyed by
`result.get('id')` — which may be `None` (`Option Val`). -/
abbrev UniqMap := List (Option Val × Dict)

def alGet (m : UniqMap) (k : Option Val) : Option Dict :=
  (m.find? (fun kv => kv.1 == k)).map (fun kv => kv.2)

def alSet (m : UniqMap) (k : Option Val) (v : Dict) : UniqMap :=
  if (m.find? (fun kv => kv.1 == k)).isSome then
    m.map (fun kv => if kv.1 == k then (k, v) else kv)
  else
    m ++ [(k, v)]

/-- One iteration of the dedup loop (lines 130-149): key the result on
`result.get('id')`; on a repeated key fold the new source's score into the
existing entry and recompute `match_score` with the raw settings weights;
on a fresh key insert the result as-is. -/
def mergeStep (wT wE : ℚ) (m : UniqMap) (r : Dict) : UniqMap :=
  let rid := dget r "id"
  match alGet m rid with
  | some existing =>
      let e1 :=
        if dget r "source" == some (Val.s "tfidf") then
          dset existing "tfidf_score" (dgetD r "tfidf_score" (Val.q 0))
        else
          dset existing "embedding_score" (dgetD r "embedding_score" (Val.q 0))
      let ms := wT * getQ e1 "tfidf_score" + wE * getQ e1 "embedding_score"
      alSet m rid (dset e1 "match_score" (Val.q ms))
  | none => alSet m rid r

/-- The final sort key (line 153): `x.get('match_score', 0.0)`. -/
def msKey (d : Dict) : ℚ := getQ d "match_score"

/-- Lines 112-154 of `get_recommendations`: tag both backends' results,
dedup them in arrival order, sort the dict values descending by
`match_score` (stable) and truncate to `max_results`. -/
def hybridCombine (tfidfResults embedResults : List Dict)
    (wT wE : ℚ) (maxResults : Nat) : List Dict :=
  let allResults := tfidfResults.map tagT ++ embedResults.map tagE
  let uniq := allResults.foldl (mergeStep wT wE) []
  (sortByDesc msKey (uniq.map (fun kv => kv.2))).take maxResults

/-- `HybridRecommender.get_recommendations` (lines 65-159): each backend is
asked for `max_results * 2` results with the default `min_score = 0.0`; a
backend that is absent or whose call raises contributes `[]` (the
`tAvail` / `eAvail` flags); the weights are the raw settings values (the
constructor stores `settings.tfidf_weight` / `settings.embedding_weight`
without renormalizing). -/
def getRecommendations (tAvail eAvail : Bool) (meta : List Recipe)
    (simT simE : List ℚ) (ingredients : List String)
    (cf df : Option String) (maxResults : Nat) : List Dict :=
  let tr := if tAvail then tfidfTop meta simT ingredients (maxResults * 2) 0 cf df else []
  let er := if eAvail then embedTop meta simE ingredients (maxResults * 2) 0 cf df else []
  hybridCombine tr er settingsTfidfWeight settingsEmbeddingWeight maxResults

/-- The inline cuisine/diet filter tests as read from a result dictionary:
the dict stores the recipe fields verbatim, so this is the same test the
candidate loop performs on the recipe. -/
def dictPass (cf df : Option String) (d : Dict) : Bool :=
  cuisinePassS cf (getS d "cuisine") && dietPassS df (getS d "diet_types")

/-! ### Concrete corpora used in the claim evaluations -/

def pasta : Recipe := ⟨1, "Pasta Primavera", "pasta,tomato,garlic", "Italian", "Vegan", 25, "Easy"⟩

def stew : Recipe := ⟨2, "Beef Stew", "beef,onion,carrot", "French", "Regular", 90, "Hard"⟩

def roast : Recipe := ⟨7, "Sunday Roast", "beef,potato", "British", "Non-Vegan", 120, "Hard"⟩

def tieHigh : Recipe := ⟨5, "Tie High", "rice", "Thai", "Vegan", 15, "Easy"⟩

def tieLow : Recipe := ⟨3, "Tie Low", "rice", "Thai", "Vegan", 15, "Easy"⟩

end Qwak

namespace Qwak

/-! ### Properties of the stable descending sort -/

theorem mem_insertByDesc {α : Type} (key : α → ℚ) (x a : α) :
    ∀ l : List α, (a ∈ insertByDesc key x l ↔ a = x ∨ a ∈ l)
  | [] => by simp [insertByDesc]
  | y :: ys => by
    simp only [insertByDesc]
    split
    · simp only [List.mem_cons, mem_insertByDesc key x a ys]
      tauto
    · simp only [List.mem_cons]


theorem pairwise_insertByDesc {α : Type} (key : α → ℚ) (x : α) :
    ∀ l : List α, l.Pairwise (fun a b => key b ≤ key a) →
      (insertByDesc key x l).Pairwise (fun a b => key b ≤ key a)
  | [], _ => by simp [insertByDesc]
  | y :: ys, h => by
    rw [List.pairwise_cons] at h
    obtain ⟨hy, hys⟩ := h
    simp only [insertByDesc]
    split
    · rename_i hlt
      rw [List.pairwise_cons]
      refine ⟨?_, pairwise_insertByDesc key x ys hys⟩
      intro b hb
      rcases (mem_insertByDesc key x b ys).mp hb with rfl | hbys
      · exact le_of_lt hlt
      · exact hy b hbys
    · rename_i hlt
      rw [List.pairwise_cons]
      refine ⟨?_, List.pairwise_cons.mpr ⟨hy, hys⟩⟩
      intro b hb
      rcases List.mem_cons.mp hb with rfl | hbys
      · exact not_lt.mp hlt
      · exact le_trans (hy b hbys) (not_lt.mp hlt)

theorem pairwise_sortByDesc {α : Type} (key : α → ℚ) :
    ∀ l : List α, (sortByDesc key l).Pairwise (fun a b => key b ≤ key a)
  | [] => by simp [sortByDesc]
  | x :: xs => pairwise_insertByDesc key x _ (pairwise_sortByDesc key xs)

theorem insertByDesc_of_le {α : Type} (key : α → ℚ) (x : α) :
    ∀ l : List α, (∀ z ∈ l, key z ≤ key x) → insertByDesc key x l = x :: l
  | [], _ => rfl
  | y :: ys, h => by
    simp only [insertByDesc, if_neg (not_lt.mpr (h y (List.mem_cons_self y ys)))]

theorem filter_insertByDesc_neg {α : Type} (key : α → ℚ) (p : α → Bool) (x : α)
    (hx : ¬ p x = true) :
    ∀ l : List α, (insertByDesc key x l).filter p = l.filter p
  | [] => by simp [insertByDesc, hx]
  | y :: ys => by
    simp only [insertByDesc]
    split
    · simp only [List.filter_cons, filter_insertByDesc_neg key p x hx ys]
    · simp only [List.filter_cons, hx, if_false, Bool.false_eq_true]

/-- Filtering commutes with stable insertion into a descending-sorted list
when the inserted element survives the filter. -/
theorem filter_insertByDesc_pos {α : Type} (key : α → ℚ) (p : α → Bool) (x : α)
    (hx : p x = true) :
    ∀ l : List α, l.Pairwise (fun a b => key b ≤ key a) →
      (insertByDesc key x l).filter p = insertByDesc key x (l.filter p)
  | [], _ => by simp [insertByDesc, hx]
  | y :: ys, h => by
    rw [List.pairwise_cons] at h
    obtain ⟨hy, hys⟩ := h
    by_cases hpy : p y = true
    · by_cases hlt : key x < key y
      · rw [show insertByDesc key x (y :: ys) = y :: insertByDesc key x ys from by
            simp [insertByDesc, hlt]]
        rw [List.filter_cons_of_pos hpy, filter_insertByDesc_pos key p x hx ys hys,
            List.filter_cons_of_pos hpy,
            show insertByDesc key x (y :: List.filter p ys)
              = y :: insertByDesc key x (List.filter p ys) from by simp [insertByDesc, hlt]]
      · rw [show insertByDesc key x (y :: ys) = x :: y :: ys from by simp [insertByDesc, hlt],
            List.filter_cons_of_pos hx, List.filter_cons_of_pos hpy]
        simp [insertByDesc, hlt]
    · by_cases hlt : key x < key y
      · rw [show insertByDesc key x (y :: ys) = y :: insertByDesc key x ys from by
            simp [insertByDesc, hlt]]
        rw [List.filter_cons_of_neg hpy, filter_insertByDesc_pos key p x hx ys hys,
            List.filter_cons_of_neg hpy]
      · have hyx : key y ≤ key x := not_lt.mp hlt
        have hall : ∀ z ∈ List.filter p ys, key z ≤ key x := by
          intro z hz
          exact le_trans (hy z (List.mem_of_mem_filter hz)) hyx
        rw [show insertByDesc key x (y :: ys) = x :: y :: ys from by simp [insertByDesc, hlt],
            List.filter_cons_of_pos hx, List.filter_cons_of_neg hpy]
        exact (insertByDesc_of_le key x _ hall).symm

/-- A stable sort of a filtered list is the filtered stable sort: the model
of the fact that filtering before or after a stable Python sort agrees. -/
theorem sortByDesc_filter {α : Type} (key : α → ℚ) (p : α → Bool) :
    ∀ l : List α, sortByDesc key (l.filter p) = (sortByDesc key l).filter p
  | [] => rfl
  | x :: xs => by
    by_cases hp : p x = true
    · rw [List.filter_cons_of_pos hp]
      show insertByDesc key x (sortByDesc key (xs.filter p)) = _
      rw [sortByDesc_filter key p xs,
          show sortByDesc key (x :: xs) = insertByDesc key x (sortByDesc key xs) from rfl,
          filter_insertByDesc_pos key p x hp _ (pairwise_sortByDesc key xs)]
    · rw [List.filter_cons_of_neg hp]
      rw [sortByDesc_filter key p xs,
          show sortByDesc key (x :: xs) = insertByDesc key x (sortByDesc key xs) from rfl,
          filter_insertByDesc_neg key p x hp _]

end Qwak

namespace Qwak

/-! ### Bounds for the fold-based minimum and maximum -/

theorem foldl_min_le_init : ∀ (l : List ℚ) (a : ℚ), l.foldl min a ≤ a
  | [], _ => le_refl _
  | b :: t, a => le_trans (foldl_min_le_init t (min a b)) (min_le_left a b)

theorem foldl_min_le_mem : ∀ (l : List ℚ) (a x : ℚ), x ∈ l → l.foldl min a ≤ x
  | [], _, _, hx => absurd hx (List.not_mem_nil _)
  | b :: t, a, x, hx => by
    rcases List.mem_cons.mp hx with rfl | hxt
    · exact le_trans (foldl_min_le_init t (min a x)) (min_le_right a x)
    · exact foldl_min_le_mem t (min a b) x hxt

theorem init_le_foldl_max : ∀ (l : List ℚ) (a : ℚ), a ≤ l.foldl max a
  | [], _ => le_refl _
  | b :: t, a => le_trans (le_max_left a b) (init_le_foldl_max t (max a b))

theorem mem_le_foldl_max : ∀ (l : List ℚ) (a x : ℚ), x ∈ l → x ≤ l.foldl max a
  | [], _, _, hx => absurd hx (List.not_mem_nil _)
  | b :: t, a, x, hx => by
    rcases List.mem_cons.mp hx with rfl | hxt
    · exact le_trans (le_max_right a x) (init_le_foldl_max t (max a x))
    · exact mem_le_foldl_max t (max a b) x hxt

theorem npMin_le_mem (l : List ℚ) (x : ℚ) (hx : x ∈ l) : npMin l ≤ x := by
  match l, hx with
  | h :: t, hx =>
    rcases List.mem_cons.mp hx with rfl | hxt
    · exact foldl_min_le_init t x
    · exact foldl_min_le_mem t h x hxt

theorem mem_le_npMax (l : List ℚ) (x : ℚ) (hx : x ∈ l) : x ≤ npMax l := by
  match l, hx with
  | h :: t, hx =>
    rcases List.mem_cons.mp hx with rfl | hxt
    · exact init_le_foldl_max t x
    · exact mem_le_foldl_max t h x hxt

/-! ### Filter decomposition of the candidate lists -/

theorem getS_recDict_cuisine (r : Recipe) (s : ℚ) :
    getS (recDict r s) "cuisine" = r.cuisine := rfl

theorem getS_recDict_diet (r : Recipe) (s : ℚ) :
    getS (recDict r s) "diet_types" = r.diet_types := rfl

theorem dictPass_recDict (cf df : Option String) (r : Recipe) (s : ℚ) :
    dictPass cf df (recDict r s) = (cuisinePass cf r && dietPass df r) := rfl

theorem keepCand_split (minS : ℚ) (cf df : Option String) (rs : Recipe × ℚ) :
    keepCand minS cf df rs
      = (keepCand minS none none rs && dictPass cf df (recDict rs.1 rs.2)) := by
  simp [keepCand, dictPass_recDict, cuisinePass, dietPass, cuisinePassS, dietPassS, truthy,
    Bool.and_assoc]

/-- Running the candidate loop with filters equals running it unfiltered
and filtering the resulting dictionaries. -/
theorem buildRecs_filter (meta : List Recipe) (scores : List ℚ) (minS : ℚ)
    (cf df : Option String) :
    buildRecs meta scores minS cf df
      = (buildRecs meta scores minS none none).filter (dictPass cf df) := by
  unfold buildRecs
  rw [List.filter_map, List.filter_filter]
  congr 1
  apply List.filter_congr
  intro rs _
  rw [keepCand_split minS cf df rs]
  simp [Function.comp, Bool.and_comm]

end Qwak

namespace Qwak

unseal Rat.mul Rat.add Rat.sub Rat.inv in
/-- C1: on a query normalizing to zero tokens the embedding backend does
return an empty list, but the TF-IDF backend returns every corpus recipe at
score 0.0 (the `score < min_score` test keeps zeros at the default 0.0), so
the hybrid call is non-empty as well — the claim fails on the code. -/
theorem c1_empty_query_not_empty :
    tfidfTop [pasta] [1] ["  "] 10 0 none none = [recDict pasta 0] ∧
    embedTop [pasta] [1] ["  "] 10 0 none none = [] ∧
    getRecommendations true true [pasta] [1] [1] ["  "] none none 10 ≠ [] := by decide

unseal Rat.mul Rat.add Rat.sub Rat.inv in
/-- C2: with the embedding backend unavailable, the TF-IDF standalone
ranking has two entries but the hybrid result has one: every tagged result
lacks an `id` key, so the dedup loop collapses all candidates into a
single bucket keyed `None`. -/
theorem c2_single_backend_collapses :
    (tfidfTop [pasta, stew] [1, 1/2] ["beef"] 2 0 none none).length = 2 ∧
    (getRecommendations true false [pasta, stew] [1, 1/2] [1, 1/2] ["beef"] none none 2).length = 1 := by
  decide

unseal Rat.mul Rat.add Rat.sub Rat.inv in
/-- C3 counterexample: the input pair (0, 0) yields effective weights
(0.4, 0.6) — the settings defaults, renormalized — not (0.5, 0.5):
`tfidf_weight or settings.tfidf_weight` replaces a 0.0 argument by the
default before the sum check, so the equal-weights fallback is not taken. -/
theorem c3_zero_pair_counterexample :
    effWeights (some 0) (some 0) = (2/5, 3/5) ∧
    effWeights (some 0) (some 0) ≠ (1/2, 1/2) := by decide

/-- C3 amended: for strictly positive input pairs the effective weights are
the inputs renormalized to sum 1.0; a zero input is replaced by the
settings default before renormalization (see the counterexample). -/
theorem c3_positive_weights_normalized (a b : ℚ) (ha : 0 < a) (hb : 0 < b) :
    effWeights (some a) (some b) = (a / (a + b), b / (a + b)) ∧
    (effWeights (some a) (some b)).1 + (effWeights (some a) (some b)).2 = 1 := by
  have hab : 0 < a + b := add_pos ha hb
  have h1 : effWeights (some a) (some b) = (a / (a + b), b / (a + b)) := by
    simp only [effWeights, pyOr]
    rw [if_neg ha.ne', if_neg hb.ne', if_pos hab]
  refine ⟨h1, ?_⟩
  rw [h1]
  simp only
  rw [div_add_div_same, div_self hab.ne']

/-- C3 amended, evaluated at the input pair (1, 3). -/
theorem c3_positive_weights_normalized_witness :
    effWeights (some 1) (some 3) = (1 / (1 + 3), 3 / (1 + 3)) ∧
    (effWeights (some 1) (some 3)).1 + (effWeights (some 1) (some 3)).2 = 1 :=
  c3_positive_weights_normalized 1 3 (by norm_num) (by norm_num)

unseal Rat.mul Rat.add Rat.sub Rat.inv in
/-- C4 counterexample: with both backends unavailable the hybrid call
returns an empty list and `combine_scores` returns an empty score array
with no fallback tag; nothing raises. -/
theorem c4_both_unavailable_empty :
    getRecommendations false false [pasta] [1] [1] ["beef"] none none 5 = [] ∧
    combineScores none none (2/5) (3/5) true = ([], ⟨false, false, none⟩) := by decide

/-- C4 amended: for every query and configuration with both backends
unavailable, the hybrid recommender returns the empty list and
`combine_scores` returns an empty score array — no error is raised. -/
theorem c4_both_unavailable_general (meta : List Recipe) (simT simE : List ℚ)
    (q : List String) (cf df : Option String) (n : Nat) (wT wE : ℚ) (b : Bool) :
    getRecommendations false false meta simT simE q cf df n = [] ∧
    (combineScores none none wT wE b).1 = [] :=
  ⟨by simp [getRecommendations, hybridCombine, sortByDesc], rfl⟩

unseal Rat.mul Rat.add Rat.sub Rat.inv in
/-- C5: the cross-backend merge is keyed on `result.get('id')`, a key no
candidate dictionary has (they store the id under `recipe_id`), so both
distinct recipes collapse into one bucket and the second recipe is lost. -/
theorem c5_merge_keyed_on_missing_id :
    (getRecommendations true true [pasta, stew] [1, 1/2] [1/2, 1] ["beef"] none none 2).map
      (fun d => dget d "recipe_id") = [some (Val.i 1)] ∧
    dget (recDict stew 1) "id" = none := by decide

unseal Rat.mul Rat.add Rat.sub Rat.inv in
/-- C6 counterexample: two recipes with equal scores come back in corpus
row order — the earlier entry has the larger id (5 before 3) — so ties are
not broken by ascending recipe id. -/
theorem c6_ties_not_ascending_id :
    tfidfTop [tieHigh, tieLow] [1/2, 1/2] ["rice"] 2 0 none none
      = [recDict tieHigh (1/2), recDict tieLow (1/2)] ∧
    simKey (recDict tieHigh (1/2)) = simKey (recDict tieLow (1/2)) ∧
    tieLow.id < tieHigh.id := by decide

/-- C6 amended: every candidate list and the fused list are sorted in
descending score order; ties keep the pre-sort order (stable sort), which
is corpus row order for the backends and insertion order for the fused
list, not ascending recipe id. -/
theorem c6_sorted_descending (meta : List Recipe) (simT simE : List ℚ) (q : List String)
    (tn : Nat) (ms : ℚ) (cf df : Option String) (tA eA : Bool) (mr : Nat) :
    (tfidfTop meta simT q tn ms cf df).Pairwise (fun a b => simKey b ≤ simKey a) ∧
    (embedTop meta simE q tn ms cf df).Pairwise (fun a b => simKey b ≤ simKey a) ∧
    (getRecommendations tA eA meta simT simE q cf df mr).Pairwise
      (fun a b => msKey b ≤ msKey a) := by
  refine ⟨?_, ?_, ?_⟩
  · exact List.Pairwise.sublist (List.take_sublist _ _) (pairwise_sortByDesc simKey _)
  · unfold embedTop
    split
    · exact List.Pairwise.nil
    · exact List.Pairwise.sublist (List.take_sublist _ _) (pairwise_sortByDesc simKey _)
  · unfold getRecommendations hybridCombine
    exact List.Pairwise.sublist (List.take_sublist _ _) (pairwise_sortByDesc msKey _)

end Qwak

namespace Qwak

unseal Rat.mul Rat.add Rat.sub Rat.inv in
/-- C7 counterexample: with diet filter "vegan", the TF-IDF recommender
keeps a recipe whose only diet label is "Non-Vegan" (substring match on the
joined diet string), while `RecipeFilter.filter_recipes` rejects the same
recipe (exact membership in the comma-split label list). -/
theorem c7_substring_label_kept :
    tfidfTop [roast] [1] ["beef"] 10 0 none (some "vegan") = [recDict roast 1] ∧
    filterRecipes [roast] [0] none (some "vegan") = [] := by decide

theorem recDict_inj {r r' : Recipe} {s s' : ℚ} (h : recDict r s = recDict r' s') :
    r = r' ∧ s = s' := by
  cases r
  cases r'
  simp only [recDict, List.cons.injEq, Prod.mk.injEq, Val.i.injEq, Val.s.injEq, Val.q.injEq,
    and_true, true_and] at h
  simp_all [Recipe.mk.injEq]

/-- C7 amended: in the recommenders, a candidate row survives iff its score
clears `min_score`, its cuisine equals the filter up to case, and the
lower-cased diet filter is a substring of the lower-cased joined diet
string (not label membership); `RecipeFilter.filter_recipes` instead keeps
a row only if the filter is a member of the comma-split, stripped,
lower-cased diet label list. -/
theorem c7_filters_characterized (meta : List Recipe) (scores : List ℚ) (minS s : ℚ)
    (r : Recipe) (cf df : String) (hcf : cf ≠ "") (hdf : df ≠ "") :
    (recDict r s ∈ buildRecs meta scores minS (some cf) (some df) ↔
      ((r, s) ∈ meta.zip scores ∧ ¬(s < minS) ∧ lowerStr r.cuisine = lowerStr cf ∧
        subChars (lowerChars df.toList) (lowerChars r.diet_types.toList) = true)) ∧
    (∀ (m : List Recipe) (i : Nat) (h : i < m.length),
      keepIdx m none (some df) i = true ↔
        ((trimChars (m.get ⟨i, h⟩).diet_types.toList).isEmpty = false ∧
         ((splitComma (trimChars (m.get ⟨i, h⟩).diet_types.toList)).map
            (fun d => lowerChars (trimChars d))).contains (lowerChars df.toList) = true)) := by
  constructor
  · constructor
    · intro hmem
      obtain ⟨rs, hrs, heq⟩ := List.mem_map.mp hmem
      obtain ⟨hr, hs⟩ := recDict_inj heq
      obtain ⟨hzip, hkeep⟩ := List.mem_filter.mp hrs
      subst hr
      subst hs
      simp only [keepCand, cuisinePass, cuisinePassS, dietPass, dietPassS, truthy,
        Option.getD_some, Bool.and_eq_true, Bool.or_eq_true, Bool.not_eq_true,
        decide_eq_false_iff_not, beq_iff_eq] at hkeep
      obtain ⟨⟨hms, hcu⟩, hdi⟩ := hkeep
      refine ⟨by rwa [Prod.mk.eta], by simpa using hms, ?_, ?_⟩
      · rcases hcu with hbad | hok
        · exact absurd (by simpa using hbad) hcf
        · exact hok
      · rcases hdi with hbad | hok
        · exact absurd (by simpa using hbad) hdf
        · exact hok
    · rintro ⟨hzip, hms, hcu, hdi⟩
      refine List.mem_map.mpr ⟨(r, s), List.mem_filter.mpr ⟨hzip, ?_⟩, rfl⟩
      simp only [keepCand, cuisinePass, cuisinePassS, dietPass, dietPassS, truthy,
        Option.getD_some, Bool.and_eq_true, Bool.or_eq_true, Bool.not_eq_true,
        decide_eq_false_iff_not]
      exact ⟨⟨by simpa using hms, Or.inr (by simpa using hcu)⟩, Or.inr hdi⟩
  · intro m i h
    simp only [keepIdx, dif_pos h, truthy]
    rw [if_neg (by simp), if_pos (by simpa using hdf)]
    simp [Bool.and_eq_true, Bool.not_eq_true']

end Qwak

namespace Qwak

/-- C7 amended, evaluated at a concrete recipe and concrete filters. -/
theorem c7_filters_characterized_witness :
    ((recDict pasta 1 ∈ buildRecs [pasta] [1] 0 (some "italian") (some "vegan") ↔
      ((pasta, (1:ℚ)) ∈ ([pasta].zip [1]) ∧ ¬((1:ℚ) < 0) ∧
        lowerStr pasta.cuisine = lowerStr "italian" ∧
        subChars (lowerChars "vegan".toList) (lowerChars pasta.diet_types.toList) = true)) ∧
    (∀ (m : List Recipe) (i : Nat) (h : i < m.length),
      keepIdx m none (some "vegan") i = true ↔
        ((trimChars (m.get ⟨i, h⟩).diet_types.toList).isEmpty = false ∧
         ((splitComma (trimChars (m.get ⟨i, h⟩).diet_types.toList)).map
            (fun d => lowerChars (trimChars d))).contains (lowerChars "vegan".toList) = true))) :=
  c7_filters_characterized [pasta] [1] 0 1 pasta "italian" "vegan" (by decide) (by decide)

/-- C8: min-max normalization of a non-empty score array returns 0.5 for
every entry when min = max, and otherwise the exact affine rescaling
`(s - min) / (max - min)` with every value in the unit interval. -/
theorem c8_minmax_normalization (scores : List ℚ) (hne : scores ≠ []) :
    (npMin scores = npMax scores →
      normalizeScoreArray scores = scores.map (fun _ => (1:ℚ)/2)) ∧
    (npMin scores ≠ npMax scores →
      normalizeScoreArray scores
          = scores.map (fun s => (s - npMin scores) / (npMax scores - npMin scores)) ∧
      ∀ x ∈ normalizeScoreArray scores, 0 ≤ x ∧ x ≤ 1) := by
  have hlen : ¬ scores.length = 0 := by simpa [List.length_eq_zero] using hne
  constructor
  · intro h
    unfold normalizeScoreArray
    rw [if_neg hlen, if_pos h.symm]
  · intro h
    have hne2 : npMax scores ≠ npMin scores := fun hh => h hh.symm
    have heq : normalizeScoreArray scores
        = scores.map (fun s => (s - npMin scores) / (npMax scores - npMin scores)) := by
      unfold normalizeScoreArray
      rw [if_neg hlen, if_neg hne2]
    refine ⟨heq, ?_⟩
    obtain ⟨s0, hs0⟩ := List.exists_mem_of_ne_nil scores hne
    have hminmax : npMin scores < npMax scores :=
      lt_of_le_of_ne (le_trans (npMin_le_mem scores s0 hs0) (mem_le_npMax scores s0 hs0)) h
    have hpos : 0 < npMax scores - npMin scores := sub_pos.mpr hminmax
    intro x hx
    rw [heq] at hx
    obtain ⟨s, hsmem, rfl⟩ := List.mem_map.mp hx
    constructor
    · exact div_nonneg (sub_nonneg.mpr (npMin_le_mem scores s hsmem)) hpos.le
    · rw [div_le_one hpos]
      exact sub_le_sub_right (mem_le_npMax scores s hsmem) _

/-- C8, evaluated at the concrete score array [1, 3]. -/
theorem c8_minmax_normalization_witness :
    (npMin ([1, 3] : List ℚ) = npMax ([1, 3] : List ℚ) →
      normalizeScoreArray ([1, 3] : List ℚ)
        = ([1, 3] : List ℚ).map (fun _ => (1:ℚ)/2)) ∧
    (npMin ([1, 3] : List ℚ) ≠ npMax ([1, 3] : List ℚ) →
      normalizeScoreArray ([1, 3] : List ℚ)
          = ([1, 3] : List ℚ).map
              (fun s => (s - npMin ([1, 3] : List ℚ)) /
                (npMax ([1, 3] : List ℚ) - npMin ([1, 3] : List ℚ))) ∧
      ∀ x ∈ normalizeScoreArray ([1, 3] : List ℚ), 0 ≤ x ∧ x ≤ 1) :=
  c8_minmax_normalization ([1, 3] : List ℚ) (by decide)

unseal Rat.mul Rat.add Rat.sub Rat.inv in
/-- C9 counterexample: with `top_n = 1`, the cuisine-filtered result is the
Italian recipe but the unfiltered result is the higher-scoring French one,
so the filtered result list is not a subsequence of the unfiltered one. -/
theorem c9_truncation_breaks_subsequence :
    ¬ (tfidfTop [stew, pasta] [9/10, 1/2] ["beef"] 1 0 (some "Italian") none).Sublist
        (tfidfTop [stew, pasta] [9/10, 1/2] ["beef"] 1 0 none none) := by decide

/-- C9 amended: before the `top_n` truncation, the sorted filtered
candidate list is a subsequence of the sorted unfiltered candidate list
(same query, same corpus, same relative order); the truncation step can
break this, as the counterexample shows. -/
theorem c9_candidates_filtered_sublist (meta : List Recipe) (scores : List ℚ) (minS : ℚ)
    (cf df : Option String) :
    (sortByDesc simKey (buildRecs meta scores minS cf df)).Sublist
      (sortByDesc simKey (buildRecs meta scores minS none none)) := by
  rw [buildRecs_filter meta scores minS cf df, sortByDesc_filter simKey (dictPass cf df)]
  exact List.filter_sublist _

/-- C10: passing an explicit 0.0 weight to the scorer is identical to
passing None — the zero is replaced by the settings default before
renormalization — and no input pair yields a zero effective weight. -/
theorem c10_zero_weight_like_none (a b : Option ℚ) :
    effWeights (some 0) b = effWeights none b ∧
    effWeights a (some 0) = effWeights a none ∧
    (effWeights a b).1 ≠ 0 ∧ (effWeights a b).2 ≠ 0 := by
  have ht : pyOr a settingsTfidfWeight ≠ 0 := by
    cases a with
    | none => norm_num [pyOr, settingsTfidfWeight]
    | some v =>
      by_cases hv : v = 0
      · simp only [pyOr, if_pos hv]
        norm_num [settingsTfidfWeight]
      · simp [pyOr, hv]
  have he : pyOr b settingsEmbeddingWeight ≠ 0 := by
    cases b with
    | none => norm_num [pyOr, settingsEmbeddingWeight]
    | some v =>
      by_cases hv : v = 0
      · simp only [pyOr, if_pos hv]
        norm_num [settingsEmbeddingWeight]
      · simp [pyOr, hv]
  refine ⟨by simp [effWeights, pyOr], by simp [effWeights, pyOr], ?_, ?_⟩
  · simp only [effWeights]
    split
    · rename_i htot
      exact div_ne_zero ht (ne_of_gt htot)
    · norm_num
  · simp only [effWeights]
    split
    · rename_i htot
      exact div_ne_zero he (ne_of_gt htot)
    · norm_num

end Qwak
